import Mathlib

/-!
Verification of the TachyFont CFF INDEX decoder
(`src/run_time/src/gae_server/www/js/tachyfont/cff_index.js`).

The decoder parses one CFF INDEX structure: a 16-bit element count, an
offset width, `count + 1` big-endian offsets, and a contiguous data
region, exposing the table length eagerly and materialising elements
lazily (`loadStrings` / `loadDict`).

Bytes are modelled as natural numbers; the stateful binary cursor
(`tachyfont.BinaryFontEditor`, an external collaborator of the decoder)
is modelled as an explicit buffer-plus-position state threaded through
each operation, and fallible reads return `Option`.
-/

namespace tachyfont

/-- Modelled from the spec: the Binary Cursor external collaborator, "a
stateful reader over a fixed byte buffer supporting absolute seek" and
fixed/variable width big-endian reads.  `buf` is the underlying byte
buffer (each entry one byte), `pos` the current read position. -/
structure Cursor where
  buf : List Nat
  pos : Nat
deriving DecidableEq, Repr

/-- Modelled from the spec: `seek(offset: uint)` — absolute reposition. -/
def Cursor.seek (c : Cursor) (offset : Nat) : Cursor :=
  { c with pos := offset }

/-- Modelled from the spec: the primitive fixed-length read underlying
`readBytes` / `readText`: consume `len` bytes and advance; fails
(`TruncatedBuffer`) when the read runs past the end of the buffer. -/
def Cursor.readBytes (c : Cursor) (len : Nat) : Option (List Nat × Cursor) :=
  if c.pos + len ≤ c.buf.length then
    some ((c.buf.drop c.pos).take len, { c with pos := c.pos + len })
  else
    none

/-- Modelled from the spec: `readUint16() -> uint16` (big-endian). -/
def Cursor.getUint16 (c : Cursor) : Option (Nat × Cursor) :=
  match c.readBytes 2 with
  | some (bs, c') => some (bs.foldl (fun a b => a * 256 + b) 0, c')
  | none => none

/-- Modelled from the spec: `readUint8() -> uint8`. -/
def Cursor.getUint8 (c : Cursor) : Option (Nat × Cursor) :=
  match c.readBytes 1 with
  | some (bs, c') => some (bs.foldl (fun a b => a * 256 + b) 0, c')
  | none => none

/-- Modelled from the spec: `readOffset(width: 1..4) -> uint32`
(big-endian, variable width).  The collaborator's behavior is specified
only for widths 1–4; outside that domain the model reports failure
rather than inventing a result. -/
def Cursor.getOffset (c : Cursor) (offSize : Nat) : Option (Nat × Cursor) :=
  if 1 ≤ offSize ∧ offSize ≤ 4 then
    match c.readBytes offSize with
    | some (bs, c') => some (bs.foldl (fun a b => a * 256 + b) 0, c')
    | none => none
  else
    none

/-- Modelled from the spec: `readText(length) -> string`, decoding each
byte as one character. -/
def Cursor.readString (c : Cursor) (len : Nat) : Option (String × Cursor) :=
  match c.readBytes len with
  | some (bs, c') => some (String.mk (bs.map Char.ofNat), c')
  | none => none

/-- Modelled from the spec: `readBytes(length) -> byte span`
(`BinaryFontEditor.readDataView`): a raw byte span of the given length. -/
def Cursor.readDataView (c : Cursor) (len : Nat) : Option (List Nat × Cursor) :=
  c.readBytes len

/-- One materialised INDEX element: a decoded text string, a raw binary
span (`DataView`), or a DICT.  The DICT decoder (`tachyfont.CffDict`) is
an external collaborator; a DICT element carries the byte span handed to
it. -/
inductive Element where
  | str (s : String)
  | bin (bytes : List Nat)
  | dict (bytes : List Nat)
deriving DecidableEq, Repr

instance {ε α : Type} [DecidableEq ε] [DecidableEq α] : DecidableEq (Except ε α) :=
  fun a b =>
    match a, b with
    | Except.ok x, Except.ok y =>
      if h : x = y then Decidable.isTrue (by rw [h]) else Decidable.isFalse (by simp [h])
    | Except.ok _, Except.error _ => Decidable.isFalse (by simp)
    | Except.error _, Except.ok _ => Decidable.isFalse (by simp)
    | Except.error x, Except.error y =>
      if h : x = y then Decidable.isTrue (by rw [h]) else Decidable.isFalse (by simp [h])

/-- The CFF INDEX table state (`tachyfont.CffIndex`), fields named after
the source: diagnostics name, source offset, element type tag, binary
flag, element count, offset width, offset array, computed table length,
and the (lazily populated) elements. -/
structure CffIndex where
  name_ : String
  offset_ : Nat
  type_ : Nat
  isBinary_ : Bool
  count_ : Nat
  offSize_ : Nat
  offsets_ : List Nat
  tableLength_ : Nat
  elements_ : List Element
deriving DecidableEq, Repr

/-- Indicates the CFF INDEX holds strings (`tachyfont.CffIndex.TYPE_STRING`). -/
def CffIndex.TYPE_STRING : Nat := 1

/-- Indicates the CFF INDEX holds DICTs (`tachyfont.CffIndex.TYPE_DICT`). -/
def CffIndex.TYPE_DICT : Nat := 2

/-- The offset-array read loop of the constructor:
`for (i = 0; i <= count; i++) offsets.push(binEd.getOffset(offSize))`,
as structural recursion on the remaining iteration count. -/
def readOffsetsLoop (offSize : Nat) : Nat → List Nat → Cursor → Option (List Nat × Cursor)
  | 0, offsets, c => some (offsets, c)
  | fuel + 1, offsets, c =>
    match c.getOffset offSize with
    | some (elementOffset, c') => readOffsetsLoop offSize fuel (offsets ++ [elementOffset]) c'
    | none => none

/-- The constructor `tachyfont.CffIndex(name, offset, type, isBinary, binEd)`:
seek to `offset`, read the 16-bit `count`; an empty INDEX (`count == 0`)
has `tableLength = 2` and `offSize = 0`; otherwise read the 8-bit
`offSize`, the `count + 1` offsets, and compute
`tableLength = 2 + 1 + (count + 1) * offSize + offsets[count] - 1`. -/
def CffIndex.make (name : String) (offset : Nat) (type : Nat) (isBinary : Bool)
    (binEd : Cursor) : Option (CffIndex × Cursor) :=
  let binEd := binEd.seek offset
  match binEd.getUint16 with
  | none => none
  | some (count, binEd) =>
    if count = 0 then
      some ({ name_ := name, offset_ := offset, type_ := type, isBinary_ := isBinary,
              count_ := count, offSize_ := 0, offsets_ := [],
              tableLength_ := 2, elements_ := [] }, binEd)
    else
      match binEd.getUint8 with
      | none => none
      | some (offSize, binEd) =>
        match readOffsetsLoop offSize (count + 1) [] binEd with
        | none => none
        | some (offsets, binEd) =>
          some ({ name_ := name, offset_ := offset, type_ := type, isBinary_ := isBinary,
                  count_ := count, offSize_ := offSize, offsets_ := offsets,
                  tableLength_ := 2 + 1 + (count + 1) * offSize + offsets.getD count 0 - 1,
                  elements_ := [] }, binEd)

/-- `getElement(index)`: return `elements_[index]` when present, else
throw `RangeError('CFF ' + name + ' INDEX: invalid index: ' + index)`. -/
def CffIndex.getElement (idx : CffIndex) (index : Nat) : Except String Element :=
  if h : index < idx.elements_.length then
    Except.ok (idx.elements_.get ⟨index, h⟩)
  else
    Except.error ("CFF " ++ idx.name_ ++ " INDEX: invalid index: " ++ toString index)

/-- `getLength()`: return `tableLength_`. -/
def CffIndex.getLength (idx : CffIndex) : Nat :=
  idx.tableLength_

/-- The element read loop of `loadStrings`:
`for (i = 0; i < count; i++)` read `offsets[i+1] - offsets[i]` bytes as
a `DataView` when binary, else as a string, pushing onto `elements`. -/
def loadStringsLoop (isBinary : Bool) (offsets : List Nat) :
    Nat → Nat → List Element → Cursor → Option (List Element × Cursor)
  | 0, _, elements, c => some (elements, c)
  | fuel + 1, i, elements, c =>
    let dataLength := offsets.getD (i + 1) 0 - offsets.getD i 0
    if isBinary then
      match c.readDataView dataLength with
      | some (dataView, c') =>
        loadStringsLoop isBinary offsets fuel (i + 1) (elements ++ [Element.bin dataView]) c'
      | none => none
    else
      match c.readString dataLength with
      | some (s, c') =>
        loadStringsLoop isBinary offsets fuel (i + 1) (elements ++ [Element.str s]) c'
      | none => none

/-- `loadStrings(binEd)`: seek to
`dataStart = offset + 2 + 1 + (count + 1) * offSize` and run the element
read loop for `count` iterations, appending to `elements_`. -/
def CffIndex.loadStrings (idx : CffIndex) (binEd : Cursor) : Option (CffIndex × Cursor) :=
  let dataStart := idx.offset_ + 2 + 1 + (idx.count_ + 1) * idx.offSize_
  let binEd := binEd.seek dataStart
  match loadStringsLoop idx.isBinary_ idx.offsets_ idx.count_ 0 idx.elements_ binEd with
  | some (elements, c') => some ({ idx with elements_ := elements }, c')
  | none => none

/-- The element loop of `loadDict`: each iteration views
`offsets[i+1] - offsets[i]` bytes at the cursor's current absolute
position as the span handed to the `tachyfont.CffDict` decoder; the
cursor position itself is never advanced by the loop (the source builds
each `DataView` directly from `binEd.offset` without reading). -/
def loadDictLoop (offsets : List Nat) :
    Nat → Nat → List Element → Cursor → Option (List Element × Cursor)
  | 0, _, elements, c => some (elements, c)
  | fuel + 1, i, elements, c =>
    let length := offsets.getD (i + 1) 0 - offsets.getD i 0
    if c.pos + length ≤ c.buf.length then
      loadDictLoop offsets fuel (i + 1)
        (elements ++ [Element.dict ((c.buf.drop c.pos).take length)]) c
    else
      none

/-- `loadDict(binEd)`: seek to the same
`dataStart = offset + 2 + 1 + (count + 1) * offSize` and run the DICT
element loop for `count` iterations, appending to `elements_`. -/
def CffIndex.loadDict (idx : CffIndex) (binEd : Cursor) : Option (CffIndex × Cursor) :=
  let dataStart := idx.offset_ + 2 + 1 + (idx.count_ + 1) * idx.offSize_
  let binEd := binEd.seek dataStart
  match loadDictLoop idx.offsets_ idx.count_ 0 idx.elements_ binEd with
  | some (elements, c') => some ({ idx with elements_ := elements }, c')
  | none => none

/-! ### Basic cursor lemmas -/

theorem Cursor.readBytes_some (c : Cursor) (len : Nat) (bs : List Nat) (c' : Cursor)
    (h : c.readBytes len = some (bs, c')) :
    c' = { c with pos := c.pos + len } := by
  unfold Cursor.readBytes at h
  split at h
  · exact (Prod.mk.injEq _ _ _ _ ▸ Option.some.injEq _ _ ▸ h).2.symm ▸ rfl
  · exact absurd h (by simp)

theorem Cursor.getUint16_some (c : Cursor) (n : Nat) (c' : Cursor)
    (h : c.getUint16 = some (n, c')) : c' = { c with pos := c.pos + 2 } := by
  unfold Cursor.getUint16 at h
  cases hrb : c.readBytes 2 with
  | none => rw [hrb] at h; exact absurd h (by simp)
  | some p =>
    rw [hrb] at h
    obtain ⟨bs, c2⟩ := p
    have := Cursor.readBytes_some c 2 bs c2 hrb
    simp only [Option.some.injEq, Prod.mk.injEq] at h
    rw [← h.2, this]

theorem Cursor.getUint8_some (c : Cursor) (n : Nat) (c' : Cursor)
    (h : c.getUint8 = some (n, c')) : c' = { c with pos := c.pos + 1 } := by
  unfold Cursor.getUint8 at h
  cases hrb : c.readBytes 1 with
  | none => rw [hrb] at h; exact absurd h (by simp)
  | some p =>
    rw [hrb] at h
    obtain ⟨bs, c2⟩ := p
    have := Cursor.readBytes_some c 1 bs c2 hrb
    simp only [Option.some.injEq, Prod.mk.injEq] at h
    rw [← h.2, this]

theorem Cursor.getOffset_some (c : Cursor) (w n : Nat) (c' : Cursor)
    (h : c.getOffset w = some (n, c')) : c' = { c with pos := c.pos + w } := by
  unfold Cursor.getOffset at h
  split at h
  · cases hrb : c.readBytes w with
    | none => rw [hrb] at h; exact absurd h (by simp)
    | some p =>
      rw [hrb] at h
      obtain ⟨bs, c2⟩ := p
      have := Cursor.readBytes_some c w bs c2 hrb
      simp only [Option.some.injEq, Prod.mk.injEq] at h
      rw [← h.2, this]
  · exact absurd h (by simp)

/-! ### Offset-loop lemmas -/

theorem readOffsetsLoop_spec (offSize : Nat) :
    ∀ (fuel : Nat) (acc : List Nat) (c : Cursor) (offs : List Nat) (c' : Cursor),
      readOffsetsLoop offSize fuel acc c = some (offs, c') →
      offs.length = acc.length + fuel ∧ c'.buf = c.buf ∧ c'.pos = c.pos + fuel * offSize
  | 0, acc, c, offs, c', h => by
    simp only [readOffsetsLoop, Option.some.injEq, Prod.mk.injEq] at h
    obtain ⟨h1, h2⟩ := h
    subst h1; subst h2
    simp
  | fuel + 1, acc, c, offs, c', h => by
    simp only [readOffsetsLoop] at h
    cases hg : c.getOffset offSize with
    | none => rw [hg] at h; exact absurd h (by simp)
    | some p =>
      rw [hg] at h
      obtain ⟨v, c2⟩ := p
      have hc2 := Cursor.getOffset_some c offSize v c2 hg
      obtain ⟨h1, h2, h3⟩ := readOffsetsLoop_spec offSize fuel (acc ++ [v]) c2 offs c' h
      subst hc2
      refine ⟨by simp at h1; omega, h2, ?_⟩
      simp only [h3]
      ring

theorem readOffsetsLoop_total (offSize : Nat) (hw1 : 1 ≤ offSize) (hw4 : offSize ≤ 4) :
    ∀ (fuel : Nat) (acc : List Nat) (c : Cursor),
      c.pos + fuel * offSize ≤ c.buf.length →
      ∃ offs c', readOffsetsLoop offSize fuel acc c = some (offs, c')
  | 0, acc, c, _ => ⟨acc, c, rfl⟩
  | fuel + 1, acc, c, hle => by
    have hg : c.getOffset offSize =
        some ((((c.buf.drop c.pos).take offSize).foldl (fun a b => a * 256 + b) 0),
          { c with pos := c.pos + offSize }) := by
      unfold Cursor.getOffset Cursor.readBytes
      rw [if_pos ⟨hw1, hw4⟩, if_pos (by nlinarith [Nat.succ_mul fuel offSize])]
    simp only [readOffsetsLoop, hg]
    exact readOffsetsLoop_total offSize hw1 hw4 fuel _ _
      (by simp; nlinarith [Nat.succ_mul fuel offSize])

/-! ### Constructor inversion -/

theorem CffIndex.make_inv (name : String) (offset type : Nat) (isBinary : Bool)
    (c : Cursor) (idx : CffIndex) (c' : Cursor)
    (hmk : CffIndex.make name offset type isBinary c = some (idx, c'))
    (hcount : idx.count_ ≠ 0) :
    idx.name_ = name ∧ idx.offset_ = offset ∧ idx.type_ = type ∧
    idx.isBinary_ = isBinary ∧ idx.elements_ = [] ∧
    idx.offsets_.length = idx.count_ + 1 ∧
    idx.tableLength_ =
      2 + 1 + (idx.count_ + 1) * idx.offSize_ + idx.offsets_.getD idx.count_ 0 - 1 := by
  unfold CffIndex.make at hmk
  simp only at hmk
  cases h16 : (c.seek offset).getUint16 with
  | none => rw [h16] at hmk; exact absurd hmk (by simp)
  | some p16 =>
    rw [h16] at hmk
    obtain ⟨count, c1⟩ := p16
    simp only at hmk
    by_cases hc0 : count = 0
    · rw [if_pos hc0] at hmk
      simp only [Option.some.injEq, Prod.mk.injEq] at hmk
      exact absurd (by rw [← hmk.1]; exact hc0) hcount
    · rw [if_neg hc0] at hmk
      cases h8 : c1.getUint8 with
      | none => rw [h8] at hmk; exact absurd hmk (by simp)
      | some p8 =>
        rw [h8] at hmk
        obtain ⟨offSize, c2⟩ := p8
        simp only at hmk
        cases hro : readOffsetsLoop offSize (count + 1) [] c2 with
        | none => rw [hro] at hmk; exact absurd hmk (by simp)
        | some pro =>
          rw [hro] at hmk
          obtain ⟨offs, c3⟩ := pro
          simp only [Option.some.injEq, Prod.mk.injEq] at hmk
          obtain ⟨hidx, _⟩ := hmk
          have hlen := (readOffsetsLoop_spec offSize (count + 1) [] c2 offs c3 hro).1
          subst hidx
          simp only [List.length_nil, Nat.zero_add] at hlen
          exact ⟨rfl, rfl, rfl, rfl, rfl, hlen, rfl⟩

theorem CffIndex.make_inv_zero (name : String) (offset type : Nat) (isBinary : Bool)
    (c : Cursor) (idx : CffIndex) (c' : Cursor)
    (hmk : CffIndex.make name offset type isBinary c = some (idx, c'))
    (hcount : idx.count_ = 0) :
    idx = { name_ := name, offset_ := offset, type_ := type, isBinary_ := isBinary,
            count_ := 0, offSize_ := 0, offsets_ := [], tableLength_ := 2,
            elements_ := [] } := by
  unfold CffIndex.make at hmk
  simp only at hmk
  cases h16 : (c.seek offset).getUint16 with
  | none => rw [h16] at hmk; exact absurd hmk (by simp)
  | some p16 =>
    rw [h16] at hmk
    obtain ⟨count, c1⟩ := p16
    simp only at hmk
    by_cases hc0 : count = 0
    · rw [if_pos hc0] at hmk
      simp only [Option.some.injEq, Prod.mk.injEq] at hmk
      rw [← hmk.1, hc0]
    · rw [if_neg hc0] at hmk
      cases h8 : c1.getUint8 with
      | none => rw [h8] at hmk; exact absurd hmk (by simp)
      | some p8 =>
        rw [h8] at hmk
        obtain ⟨offSize, c2⟩ := p8
        simp only at hmk
        cases hro : readOffsetsLoop offSize (count + 1) [] c2 with
        | none => rw [hro] at hmk; exact absurd hmk (by simp)
        | some pro =>
          rw [hro] at hmk
          obtain ⟨offs, c3⟩ := pro
          simp only [Option.some.injEq, Prod.mk.injEq] at hmk
          exact absurd (by rw [← hmk.1] at hcount; exact hcount) hc0

/-! ### Claim theorems -/

/-- C1: for every IndexTable constructed over a buffer whose header decodes
to `count ≥ 1`, the `tableLength` computed at construction equals
`2 + 1 + (count+1)*offsetWidth + (offsets[count] - 1)`, where the offsets
are the `count + 1` integers of width `offsetWidth` read after the count,
and `getLength()` returns exactly this value. -/
theorem cffIndex_C1 (name : String) (offset type : Nat) (isBinary : Bool)
    (c : Cursor) (idx : CffIndex) (c' : Cursor)
    (hmk : CffIndex.make name offset type isBinary c = some (idx, c'))
    (hcount : 1 ≤ idx.count_) :
    idx.getLength = idx.tableLength_ ∧
    idx.offsets_.length = idx.count_ + 1 ∧
    (idx.tableLength_ : ℤ) =
      2 + 1 + ((idx.count_ : ℤ) + 1) * idx.offSize_ +
        ((idx.offsets_.getD idx.count_ 0 : ℤ) - 1) := by
  obtain ⟨-, -, -, -, -, hlen, htl⟩ :=
    CffIndex.make_inv name offset type isBinary c idx c' hmk (by omega)
  refine ⟨rfl, hlen, ?_⟩
  have h1 : 1 ≤ 2 + 1 + (idx.count_ + 1) * idx.offSize_ +
      idx.offsets_.getD idx.count_ 0 := by omega
  rw [htl, Nat.cast_sub h1]
  push_cast
  ring

/-- Witness for C1 at the concrete buffer `[00 02, 01, 01 02 04, 41, 42 43]`. -/
theorem cffIndex_C1_witness :
    ({ name_ := "W1", offset_ := 0, type_ := 1, isBinary_ := false, count_ := 2,
       offSize_ := 1, offsets_ := [1, 2, 4], tableLength_ := 9,
       elements_ := [] } : CffIndex).getLength = 9 := by
  have h := cffIndex_C1 "W1" 0 1 false ⟨[0, 2, 1, 1, 2, 4, 65, 66, 67], 0⟩
      { name_ := "W1", offset_ := 0, type_ := 1, isBinary_ := false, count_ := 2,
        offSize_ := 1, offsets_ := [1, 2, 4], tableLength_ := 9, elements_ := [] }
      ⟨[0, 2, 1, 1, 2, 4, 65, 66, 67], 6⟩ (by decide) (by decide)
  exact h.1

/-- C2: for every buffer position whose first two bytes decode to
`count == 0`, construction stops after the 2-byte count field with
`offSize = 0`, `offsets = []`, `tableLength = 2`; the cursor is left at
`offset + 2`, so no offset-width byte and no offset array are read. -/
theorem cffIndex_C2 (name : String) (offset type : Nat) (isBinary : Bool)
    (c c1 : Cursor)
    (h16 : (c.seek offset).getUint16 = some (0, c1)) :
    CffIndex.make name offset type isBinary c =
      some ({ name_ := name, offset_ := offset, type_ := type, isBinary_ := isBinary,
              count_ := 0, offSize_ := 0, offsets_ := [], tableLength_ := 2,
              elements_ := [] }, c1) ∧
    c1.buf = c.buf ∧ c1.pos = offset + 2 := by
  have hc1 := Cursor.getUint16_some _ _ _ h16
  refine ⟨?_, by rw [hc1]; rfl, by rw [hc1]; rfl⟩
  unfold CffIndex.make
  simp only [h16, if_pos]

/-- Witness for C2 at the concrete buffer `[00 00]`. -/
theorem cffIndex_C2_witness :
    CffIndex.make "Empty" 0 1 false ⟨[0, 0], 0⟩ =
      some ({ name_ := "Empty", offset_ := 0, type_ := 1, isBinary_ := false,
              count_ := 0, offSize_ := 0, offsets_ := [], tableLength_ := 2,
              elements_ := [] }, ⟨[0, 0], 2⟩) :=
  (cffIndex_C2 "Empty" 0 1 false ⟨[0, 0], 0⟩ ⟨[0, 0], 2⟩ (by decide)).1

/-- C4: `getElement(i)` returns the stored element when
`0 ≤ i < elements.length` and otherwise fails with a `RangeError` naming
the INDEX and the offending index; in particular it fails for every `i`
when no load has populated `elements`, and for every `i ≥ count` whenever
at most `count` elements are stored. -/
theorem cffIndex_C4 (idx : CffIndex) (i : Nat) :
    (∀ h : i < idx.elements_.length,
        idx.getElement i = Except.ok (idx.elements_.get ⟨i, h⟩)) ∧
    (idx.elements_.length ≤ i →
        idx.getElement i =
          Except.error ("CFF " ++ idx.name_ ++ " INDEX: invalid index: " ++ toString i)) ∧
    (idx.elements_ = [] →
        idx.getElement i =
          Except.error ("CFF " ++ idx.name_ ++ " INDEX: invalid index: " ++ toString i)) ∧
    (idx.elements_.length ≤ idx.count_ → idx.count_ ≤ i →
        idx.getElement i =
          Except.error ("CFF " ++ idx.name_ ++ " INDEX: invalid index: " ++ toString i)) := by
  unfold CffIndex.getElement
  exact ⟨fun h => dif_pos h, fun h => dif_neg (by omega),
    fun h => dif_neg (by simp [h]), fun h1 h2 => dif_neg (by omega)⟩

/-- Witness for C4: a loaded slot is returned, an out-of-range index and a
not-yet-loaded table raise the range error. -/
theorem cffIndex_C4_witness :
    ({ name_ := "S", offset_ := 0, type_ := 1, isBinary_ := false, count_ := 1,
       offSize_ := 1, offsets_ := [1, 2], tableLength_ := 6,
       elements_ := [Element.str "A"] } : CffIndex).getElement 0 =
        Except.ok (Element.str "A") ∧
    ({ name_ := "S", offset_ := 0, type_ := 1, isBinary_ := false, count_ := 1,
       offSize_ := 1, offsets_ := [1, 2], tableLength_ := 6,
       elements_ := [Element.str "A"] } : CffIndex).getElement 3 =
        Except.error "CFF S INDEX: invalid index: 3" ∧
    ({ name_ := "S", offset_ := 0, type_ := 1, isBinary_ := false, count_ := 1,
       offSize_ := 1, offsets_ := [1, 2], tableLength_ := 6,
       elements_ := [] } : CffIndex).getElement 0 =
        Except.error "CFF S INDEX: invalid index: 0" := by
  refine ⟨?_, ?_, ?_⟩
  · exact (cffIndex_C4 ⟨"S", 0, 1, false, 1, 1, [1, 2], 6, [Element.str "A"]⟩ 0).1
      (by decide)
  · exact ((cffIndex_C4 ⟨"S", 0, 1, false, 1, 1, [1, 2], 6, [Element.str "A"]⟩ 3).2.1
      (by decide)).trans (by decide)
  · exact ((cffIndex_C4 ⟨"S", 0, 1, false, 1, 1, [1, 2], 6, []⟩ 0).2.2.1
      rfl).trans (by decide)

/-- C5: the concrete buffer `[00 02, 01, 01 02 04, 'A', 'BC']` decodes to
`count = 2`, `tableLength = 9`, and after `loadStrings`,
`getElement(0) = "A"` and `getElement(1) = "BC"`. -/
theorem cffIndex_C5 :
    CffIndex.make "CharStrings" 0 CffIndex.TYPE_STRING false
        ⟨[0, 2, 1, 1, 2, 4, 65, 66, 67], 0⟩ =
      some ({ name_ := "CharStrings", offset_ := 0, type_ := CffIndex.TYPE_STRING,
              isBinary_ := false, count_ := 2, offSize_ := 1, offsets_ := [1, 2, 4],
              tableLength_ := 9, elements_ := [] },
            ⟨[0, 2, 1, 1, 2, 4, 65, 66, 67], 6⟩) ∧
    ({ name_ := "CharStrings", offset_ := 0, type_ := CffIndex.TYPE_STRING,
       isBinary_ := false, count_ := 2, offSize_ := 1, offsets_ := [1, 2, 4],
       tableLength_ := 9, elements_ := [] } : CffIndex).getLength = 9 ∧
    ({ name_ := "CharStrings", offset_ := 0, type_ := CffIndex.TYPE_STRING,
       isBinary_ := false, count_ := 2, offSize_ := 1, offsets_ := [1, 2, 4],
       tableLength_ := 9, elements_ := [] } : CffIndex).loadStrings
        ⟨[0, 2, 1, 1, 2, 4, 65, 66, 67], 6⟩ =
      some ({ name_ := "CharStrings", offset_ := 0, type_ := CffIndex.TYPE_STRING,
              isBinary_ := false, count_ := 2, offSize_ := 1, offsets_ := [1, 2, 4],
              tableLength_ := 9,
              elements_ := [Element.str "A", Element.str "BC"] },
            ⟨[0, 2, 1, 1, 2, 4, 65, 66, 67], 9⟩) ∧
    ({ name_ := "CharStrings", offset_ := 0, type_ := CffIndex.TYPE_STRING,
       isBinary_ := false, count_ := 2, offSize_ := 1, offsets_ := [1, 2, 4],
       tableLength_ := 9,
       elements_ := [Element.str "A", Element.str "BC"] } : CffIndex).getElement 0 =
      Except.ok (Element.str "A") ∧
    ({ name_ := "CharStrings", offset_ := 0, type_ := CffIndex.TYPE_STRING,
       isBinary_ := false, count_ := 2, offSize_ := 1, offsets_ := [1, 2, 4],
       tableLength_ := 9,
       elements_ := [Element.str "A", Element.str "BC"] } : CffIndex).getElement 1 =
      Except.ok (Element.str "BC") := by
  decide

/-- C6 counterexample: on the buffer `[00 01, 01, 09 07]` (count 1,
`offSize` 1, offsets `[9, 7]`) the offsets decrease and the computed
`tableLength` of 11 exceeds the 5-byte buffer, yet construction succeeds
and computes that length instead of failing fast. -/
theorem cffIndex_C6_cex :
    CffIndex.make "Bad" 0 1 false ⟨[0, 1, 1, 9, 7], 0⟩ =
      some (⟨"Bad", 0, 1, false, 1, 1, [9, 7], 11, []⟩, ⟨[0, 1, 1, 9, 7], 5⟩) ∧
    (7 : Nat) < 9 ∧
    ([0, 1, 1, 9, 7] : List Nat).length < 11 := by
  decide

/-- C6 amended: the constructor validates nothing itself: whenever the
count is nonzero and the cursor reads succeed (the offset-width byte is
present, its value lies in the cursor's specified `1..4` domain, and the
`count + 1` offsets are present), construction succeeds — whether or not
the offsets are monotone and whether or not the computed length fits the
remaining buffer — and computes `tableLength` by the formula. -/
theorem cffIndex_C6_amended (name : String) (offset type : Nat) (isBinary : Bool)
    (c c1 c2 : Cursor) (count offSize : Nat)
    (h16 : (c.seek offset).getUint16 = some (count, c1)) (hc : count ≠ 0)
    (h8 : c1.getUint8 = some (offSize, c2))
    (hw1 : 1 ≤ offSize) (hw4 : offSize ≤ 4)
    (hfit : c2.pos + (count + 1) * offSize ≤ c2.buf.length) :
    ∃ offs c3,
      CffIndex.make name offset type isBinary c =
        some ({ name_ := name, offset_ := offset, type_ := type, isBinary_ := isBinary,
                count_ := count, offSize_ := offSize, offsets_ := offs,
                tableLength_ := 2 + 1 + (count + 1) * offSize + offs.getD count 0 - 1,
                elements_ := [] }, c3) := by
  obtain ⟨offs, c3, hro⟩ := readOffsetsLoop_total offSize hw1 hw4 (count + 1) [] c2 hfit
  refine ⟨offs, c3, ?_⟩
  unfold CffIndex.make
  simp only [h16]
  rw [if_neg hc]
  simp only [h8, hro]

/-- Witness for the amended C6 at the decreasing-offsets buffer. -/
theorem cffIndex_C6_amended_witness :
    ∃ offs c3,
      CffIndex.make "Bad" 0 1 false ⟨[0, 1, 1, 9, 7], 0⟩ =
        some ({ name_ := "Bad", offset_ := 0, type_ := 1, isBinary_ := false,
                count_ := 1, offSize_ := 1, offsets_ := offs,
                tableLength_ := 2 + 1 + (1 + 1) * 1 + offs.getD 1 0 - 1,
                elements_ := [] }, c3) :=
  cffIndex_C6_amended "Bad" 0 1 false
    ⟨[0, 1, 1, 9, 7], 0⟩ ⟨[0, 1, 1, 9, 7], 2⟩ ⟨[0, 1, 1, 9, 7], 3⟩
    1 1 (by decide) (by decide) (by decide) (by decide) (by decide) (by decide)

/-- C7 counterexample: on the empty INDEX `[00 00]` the constructor leaves
the cursor at position 2, but `loadStrings` then seeks it to position 3 —
the cursor state does change, so the load is not a complete no-op. -/
theorem cffIndex_C7_cex :
    CffIndex.make "Empty" 0 1 false ⟨[0, 0], 0⟩ =
      some (⟨"Empty", 0, 1, false, 0, 0, [], 2, []⟩, ⟨[0, 0], 2⟩) ∧
    (⟨"Empty", 0, 1, false, 0, 0, [], 2, []⟩ : CffIndex).loadStrings ⟨[0, 0], 2⟩ =
      some (⟨"Empty", 0, 1, false, 0, 0, [], 2, []⟩, ⟨[0, 0], 3⟩) ∧
    (⟨[0, 0], 3⟩ : Cursor) ≠ (⟨[0, 0], 2⟩ : Cursor) := by
  decide

/-- C7 amended: for every IndexTable constructed with `count == 0`,
`getLength()` returns 2 and both `loadStrings` and `loadDict` leave the
table itself (in particular `elements`, still empty) unchanged; the one
observable state change is that the cursor is seeked to
`sourceOffset + 3`. -/
theorem cffIndex_C7_amended (name : String) (offset type : Nat) (isBinary : Bool)
    (c0 c1 c : Cursor) (idx : CffIndex)
    (hmk : CffIndex.make name offset type isBinary c0 = some (idx, c1))
    (hcount : idx.count_ = 0) :
    idx.getLength = 2 ∧ idx.elements_ = [] ∧
    idx.loadStrings c = some (idx, c.seek (idx.offset_ + 3)) ∧
    idx.loadDict c = some (idx, c.seek (idx.offset_ + 3)) := by
  have h := CffIndex.make_inv_zero name offset type isBinary c0 idx c1 hmk hcount
  subst h
  exact ⟨rfl, rfl, rfl, rfl⟩

/-- Witness for the amended C7 at the concrete buffer `[00 00]`. -/
theorem cffIndex_C7_amended_witness :
    (⟨"Empty", 0, 1, false, 0, 0, [], 2, []⟩ : CffIndex).getLength = 2 ∧
    (⟨"Empty", 0, 1, false, 0, 0, [], 2, []⟩ : CffIndex).elements_ = [] ∧
    (⟨"Empty", 0, 1, false, 0, 0, [], 2, []⟩ : CffIndex).loadStrings ⟨[0, 0], 2⟩ =
      some (⟨"Empty", 0, 1, false, 0, 0, [], 2, []⟩, Cursor.seek ⟨[0, 0], 2⟩ (0 + 3)) ∧
    (⟨"Empty", 0, 1, false, 0, 0, [], 2, []⟩ : CffIndex).loadDict ⟨[0, 0], 2⟩ =
      some (⟨"Empty", 0, 1, false, 0, 0, [], 2, []⟩, Cursor.seek ⟨[0, 0], 2⟩ (0 + 3)) :=
  cffIndex_C7_amended "Empty" 0 1 false ⟨[0, 0], 0⟩ ⟨[0, 0], 2⟩ ⟨[0, 0], 2⟩
    ⟨"Empty", 0, 1, false, 0, 0, [], 2, []⟩ (by decide) rfl

/-- C8: `loadStrings` mutates only the element sequence: every other field
of the IndexTable — offsets, tableLength, count, offSize, sourceOffset,
name, element kind and the binary flag — is unchanged. -/
theorem cffIndex_C8 (idx : CffIndex) (c : Cursor) (idx' : CffIndex) (c' : Cursor)
    (h : idx.loadStrings c = some (idx', c')) :
    idx'.offsets_ = idx.offsets_ ∧ idx'.tableLength_ = idx.tableLength_ ∧
    idx'.count_ = idx.count_ ∧ idx'.offSize_ = idx.offSize_ ∧
    idx'.offset_ = idx.offset_ ∧ idx'.name_ = idx.name_ ∧
    idx'.type_ = idx.type_ ∧ idx'.isBinary_ = idx.isBinary_ := by
  unfold CffIndex.loadStrings at h
  simp only at h
  cases hl : loadStringsLoop idx.isBinary_ idx.offsets_ idx.count_ 0 idx.elements_
      (c.seek (idx.offset_ + 2 + 1 + (idx.count_ + 1) * idx.offSize_)) with
  | none => rw [hl] at h; exact absurd h (by simp)
  | some p =>
    rw [hl] at h
    obtain ⟨elems, c2⟩ := p
    simp only [Option.some.injEq, Prod.mk.injEq] at h
    rw [← h.1]
    exact ⟨rfl, rfl, rfl, rfl, rfl, rfl, rfl, rfl⟩

/-- Witness for C8 on the C5 buffer: apply the frame theorem to the
concrete `loadStrings` run. -/
theorem cffIndex_C8_witness :
    (⟨"CharStrings", 0, 1, false, 2, 1, [1, 2, 4], 9,
        [Element.str "A", Element.str "BC"]⟩ : CffIndex).offsets_ =
      (⟨"CharStrings", 0, 1, false, 2, 1, [1, 2, 4], 9, []⟩ : CffIndex).offsets_ ∧
    (⟨"CharStrings", 0, 1, false, 2, 1, [1, 2, 4], 9,
        [Element.str "A", Element.str "BC"]⟩ : CffIndex).tableLength_ =
      (⟨"CharStrings", 0, 1, false, 2, 1, [1, 2, 4], 9, []⟩ : CffIndex).tableLength_ :=
  have h := cffIndex_C8 ⟨"CharStrings", 0, 1, false, 2, 1, [1, 2, 4], 9, []⟩
    ⟨[0, 2, 1, 1, 2, 4, 65, 66, 67], 6⟩
    ⟨"CharStrings", 0, 1, false, 2, 1, [1, 2, 4], 9,
      [Element.str "A", Element.str "BC"]⟩
    ⟨[0, 2, 1, 1, 2, 4, 65, 66, 67], 9⟩ (by decide)
  ⟨h.1, h.2.1⟩

/-! ### loadStrings loop lemmas -/

theorem loadStringsLoop_spec (isBinary : Bool) (offs : List Nat) :
    ∀ (fuel i : Nat) (acc : List Element) (c : Cursor) (res : List Element) (c' : Cursor),
      loadStringsLoop isBinary offs fuel i acc c = some (res, c') →
      ∃ out, res = acc ++ out ∧ out.length = fuel ∧ c'.buf = c.buf ∧
        ∀ acc2, loadStringsLoop isBinary offs fuel i acc2 c = some (acc2 ++ out, c')
  | 0, i, acc, c, res, c', h => by
    simp only [loadStringsLoop, Option.some.injEq, Prod.mk.injEq] at h
    obtain ⟨h1, h2⟩ := h
    subst h1; subst h2
    exact ⟨[], by simp, rfl, rfl, fun acc2 => by simp [loadStringsLoop]⟩
  | fuel + 1, i, acc, c, res, c', h => by
    simp only [loadStringsLoop] at h
    by_cases hb : isBinary
    · rw [if_pos hb] at h
      cases hr : c.readDataView (offs.getD (i + 1) 0 - offs.getD i 0) with
      | none => rw [hr] at h; exact absurd h (by simp)
      | some p =>
        rw [hr] at h
        obtain ⟨dv, c2⟩ := p
        obtain ⟨out, ho1, ho2, ho3, ho4⟩ :=
          loadStringsLoop_spec isBinary offs fuel (i + 1) (acc ++ [Element.bin dv]) c2 res c' h
        have hc2 : c2 = { c with pos := c.pos + (offs.getD (i + 1) 0 - offs.getD i 0) } :=
          Cursor.readBytes_some _ _ _ _ hr
        refine ⟨Element.bin dv :: out, by simp [ho1], by simp [ho2], by rw [ho3, hc2], ?_⟩
        intro acc2
        simp only [loadStringsLoop, if_pos hb, hr]
        rw [ho4 (acc2 ++ [Element.bin dv])]
        simp
    · rw [if_neg hb] at h
      cases hr : c.readString (offs.getD (i + 1) 0 - offs.getD i 0) with
      | none => rw [hr] at h; exact absurd h (by simp)
      | some p =>
        rw [hr] at h
        obtain ⟨s, c2⟩ := p
        obtain ⟨out, ho1, ho2, ho3, ho4⟩ :=
          loadStringsLoop_spec isBinary offs fuel (i + 1) (acc ++ [Element.str s]) c2 res c' h
        have hc2 : c2 = { c with pos := c.pos + (offs.getD (i + 1) 0 - offs.getD i 0) } := by
          unfold Cursor.readString at hr
          cases hrb : c.readBytes (offs.getD (i + 1) 0 - offs.getD i 0) with
          | none => rw [hrb] at hr; exact absurd hr (by simp)
          | some q =>
            rw [hrb] at hr
            obtain ⟨bs, c3⟩ := q
            simp only [Option.some.injEq, Prod.mk.injEq] at hr
            rw [← hr.2]
            exact Cursor.readBytes_some _ _ _ _ hrb
        refine ⟨Element.str s :: out, by simp [ho1], by simp [ho2], by rw [ho3, hc2], ?_⟩
        intro acc2
        simp only [loadStringsLoop, if_neg hb, hr]
        rw [ho4 (acc2 ++ [Element.str s])]
        simp

theorem getD_mono_range (offs : List Nat) (lo hi : Nat)
    (hmono : ∀ j, lo ≤ j → j + 1 ≤ hi → offs.getD j 0 ≤ offs.getD (j + 1) 0) :
    ∀ (k a : Nat), lo ≤ a → a + k ≤ hi → offs.getD a 0 ≤ offs.getD (a + k) 0
  | 0, a, _, _ => le_of_eq rfl
  | k + 1, a, h1, h2 => by
    have step := hmono a h1 (by omega)
    have rest := getD_mono_range offs lo hi hmono k (a + 1) (by omega) (by omega)
    have harith : a + 1 + k = a + (k + 1) := by omega
    rw [harith] at rest
    exact le_trans step rest

theorem loadStringsLoop_pos (isBinary : Bool) (offs : List Nat) :
    ∀ (fuel i : Nat) (acc : List Element) (c : Cursor) (res : List Element) (c' : Cursor),
      loadStringsLoop isBinary offs fuel i acc c = some (res, c') →
      (∀ j, i ≤ j → j + 1 ≤ i + fuel → offs.getD j 0 ≤ offs.getD (j + 1) 0) →
      c'.pos = c.pos + (offs.getD (i + fuel) 0 - offs.getD i 0)
  | 0, i, acc, c, res, c', h, _ => by
    simp only [loadStringsLoop, Option.some.injEq, Prod.mk.injEq] at h
    rw [← h.2]
    simp
  | fuel + 1, i, acc, c, res, c', h, hmono => by
    simp only [loadStringsLoop] at h
    have key : ∀ (c2 : Cursor),
        c2 = { c with pos := c.pos + (offs.getD (i + 1) 0 - offs.getD i 0) } →
        c'.pos = c2.pos + (offs.getD (i + 1 + fuel) 0 - offs.getD (i + 1) 0) →
        c'.pos = c.pos + (offs.getD (i + (fuel + 1)) 0 - offs.getD i 0) := by
      intro c2 hc2 hrec
      have hstep : offs.getD i 0 ≤ offs.getD (i + 1) 0 := hmono i le_rfl (by omega)
      have hchain : offs.getD (i + 1) 0 ≤ offs.getD (i + 1 + fuel) 0 :=
        getD_mono_range offs i (i + (fuel + 1)) (fun j hj1 hj2 => hmono j hj1 hj2)
          fuel (i + 1) (by omega) (by omega)
      have harith : i + 1 + fuel = i + (fuel + 1) := by omega
      rw [harith] at hrec hchain
      rw [hrec, hc2]
      simp only
      omega
    by_cases hb : isBinary
    · rw [if_pos hb] at h
      cases hr : c.readDataView (offs.getD (i + 1) 0 - offs.getD i 0) with
      | none => rw [hr] at h; exact absurd h (by simp)
      | some p =>
        rw [hr] at h
        obtain ⟨dv, c2⟩ := p
        exact key c2 (Cursor.readBytes_some _ _ _ _ hr)
          (loadStringsLoop_pos isBinary offs fuel (i + 1) _ c2 res c' h
            (fun j hj1 hj2 => hmono j (by omega) (by omega)))
    · rw [if_neg hb] at h
      cases hr : c.readString (offs.getD (i + 1) 0 - offs.getD i 0) with
      | none => rw [hr] at h; exact absurd h (by simp)
      | some p =>
        rw [hr] at h
        obtain ⟨s, c2⟩ := p
        have hc2 : c2 = { c with pos := c.pos + (offs.getD (i + 1) 0 - offs.getD i 0) } := by
          unfold Cursor.readString at hr
          cases hrb : c.readBytes (offs.getD (i + 1) 0 - offs.getD i 0) with
          | none => rw [hrb] at hr; exact absurd hr (by simp)
          | some q =>
            rw [hrb] at hr
            obtain ⟨bs, c3⟩ := q
            simp only [Option.some.injEq, Prod.mk.injEq] at hr
            rw [← hr.2]
            exact Cursor.readBytes_some _ _ _ _ hrb
        exact key c2 hc2
          (loadStringsLoop_pos isBinary offs fuel (i + 1) _ c2 res c' h
            (fun j hj1 hj2 => hmono j (by omega) (by omega)))

/-- C3: for every constructed IndexTable with a well-formed offset array
(`count ≥ 1`, non-decreasing offsets, `offsets[0] = 1`), a successful
`loadStrings(cursor)` leaves `elements.length == count` and the cursor at
the end of the data region, i.e. at `sourceOffset + tableLength`; the
cursor's buffer is untouched. -/
theorem cffIndex_C3 (name : String) (offset type : Nat) (isBinary : Bool)
    (c0 c1 c c' : Cursor) (idx idx' : CffIndex)
    (hmk : CffIndex.make name offset type isBinary c0 = some (idx, c1))
    (hcount : 1 ≤ idx.count_)
    (hmono : ∀ j, j + 1 ≤ idx.count_ →
      idx.offsets_.getD j 0 ≤ idx.offsets_.getD (j + 1) 0)
    (hfirst : idx.offsets_.getD 0 0 = 1)
    (hload : idx.loadStrings c = some (idx', c')) :
    idx'.elements_.length = idx.count_ ∧ c'.buf = c.buf ∧
    c'.pos = idx.offset_ + idx.tableLength_ := by
  obtain ⟨-, -, -, -, helems, -, htl⟩ :=
    CffIndex.make_inv name offset type isBinary c0 idx c1 hmk (by omega)
  unfold CffIndex.loadStrings at hload
  simp only at hload
  cases hl : loadStringsLoop idx.isBinary_ idx.offsets_ idx.count_ 0 idx.elements_
      (c.seek (idx.offset_ + 2 + 1 + (idx.count_ + 1) * idx.offSize_)) with
  | none => rw [hl] at hload; exact absurd hload (by simp)
  | some p =>
    rw [hl] at hload
    obtain ⟨res, c2⟩ := p
    simp only [Option.some.injEq, Prod.mk.injEq] at hload
    obtain ⟨hidx', hc'⟩ := hload
    obtain ⟨out, ho1, ho2, ho3, -⟩ :=
      loadStringsLoop_spec idx.isBinary_ idx.offsets_ idx.count_ 0 idx.elements_ _ res c2 hl
    have hpos := loadStringsLoop_pos idx.isBinary_ idx.offsets_ idx.count_ 0 idx.elements_
      _ res c2 hl (fun j hj1 hj2 => hmono j (by omega))
    have hlast : 1 ≤ idx.offsets_.getD idx.count_ 0 := by
      have := getD_mono_range idx.offsets_ 0 idx.count_
        (fun j _ hj2 => hmono j hj2) idx.count_ 0 le_rfl (by omega)
      rw [Nat.zero_add] at this
      omega
    subst hidx'
    subst hc'
    refine ⟨?_, ho3, ?_⟩
    · rw [ho1, helems]
      simpa using ho2
    · rw [hpos]
      have hds : (c.seek (idx.offset_ + 2 + 1 + (idx.count_ + 1) * idx.offSize_)).pos =
          idx.offset_ + 2 + 1 + (idx.count_ + 1) * idx.offSize_ := rfl
      rw [hds, htl, Nat.zero_add, hfirst]
      omega

/-- Witness for C3: the C5 buffer run through `loadStrings`. -/
theorem cffIndex_C3_witness :
    (⟨"CharStrings", 0, 1, false, 2, 1, [1, 2, 4], 9,
        [Element.str "A", Element.str "BC"]⟩ : CffIndex).elements_.length = 2 ∧
    (⟨[0, 2, 1, 1, 2, 4, 65, 66, 67], 9⟩ : Cursor).buf =
      (⟨[0, 2, 1, 1, 2, 4, 65, 66, 67], 6⟩ : Cursor).buf ∧
    (⟨[0, 2, 1, 1, 2, 4, 65, 66, 67], 9⟩ : Cursor).pos = 0 + 9 :=
  cffIndex_C3 "CharStrings" 0 1 false
    ⟨[0, 2, 1, 1, 2, 4, 65, 66, 67], 0⟩ ⟨[0, 2, 1, 1, 2, 4, 65, 66, 67], 6⟩
    ⟨[0, 2, 1, 1, 2, 4, 65, 66, 67], 6⟩ ⟨[0, 2, 1, 1, 2, 4, 65, 66, 67], 9⟩
    ⟨"CharStrings", 0, 1, false, 2, 1, [1, 2, 4], 9, []⟩
    ⟨"CharStrings", 0, 1, false, 2, 1, [1, 2, 4], 9,
      [Element.str "A", Element.str "BC"]⟩
    (by decide) (by decide)
    (by
      intro j hj
      have hj2 : j < 2 := hj
      interval_cases j <;> decide)
    (by decide) (by decide)

/-- C10: calling `loadStrings` a second time appends `count` further
entries rather than overwriting or rejecting: afterwards
`elements.length == 2*count` and `getElement(count + i)` agrees with
`getElement(i)` for every `i < count`. -/
theorem cffIndex_C10 (idx idx1 : CffIndex) (c c1 : Cursor)
    (hcount : 1 ≤ idx.count_) (hempty : idx.elements_ = [])
    (hload : idx.loadStrings c = some (idx1, c1)) :
    ∃ idx2 c2, idx1.loadStrings c1 = some (idx2, c2) ∧
      idx2.elements_.length = 2 * idx.count_ ∧
      ∀ i, i < idx.count_ → idx2.getElement (idx.count_ + i) = idx2.getElement i := by
  unfold CffIndex.loadStrings at hload
  simp only at hload
  cases hl : loadStringsLoop idx.isBinary_ idx.offsets_ idx.count_ 0 idx.elements_
      (c.seek (idx.offset_ + 2 + 1 + (idx.count_ + 1) * idx.offSize_)) with
  | none => rw [hl] at hload; exact absurd hload (by simp)
  | some p =>
    rw [hl] at hload
    obtain ⟨res, c2⟩ := p
    simp only [Option.some.injEq, Prod.mk.injEq] at hload
    obtain ⟨hidx1, hc1⟩ := hload
    obtain ⟨out, ho1, ho2, ho3, ho4⟩ :=
      loadStringsLoop_spec idx.isBinary_ idx.offsets_ idx.count_ 0 idx.elements_ _ res c2 hl
    rw [hempty, List.nil_append] at ho1
    subst ho1
    subst hidx1
    subst hc1
    have hseek : Cursor.seek c2 (idx.offset_ + 2 + 1 + (idx.count_ + 1) * idx.offSize_) =
        Cursor.seek c (idx.offset_ + 2 + 1 + (idx.count_ + 1) * idx.offSize_) := by
      unfold Cursor.seek
      rw [show c2.buf = c.buf from ho3]
    refine ⟨{ idx with elements_ := res ++ res }, c2, ?_, ?_, ?_⟩
    · simp only [CffIndex.loadStrings]
      rw [hseek, ho4 res]
    · simp only [List.length_append, ho2]
      omega
    · intro i hi
      unfold CffIndex.getElement
      have hlen : (res ++ res).length = 2 * idx.count_ := by
        simp only [List.length_append, ho2]; omega
      have h1 : idx.count_ + i < (res ++ res).length := by omega
      have h2 : i < (res ++ res).length := by omega
      rw [dif_pos h1, dif_pos h2]
      simp only [List.get_eq_getElem]
      rw [List.getElem_append_right (by omega : res.length ≤ idx.count_ + i),
        List.getElem_append_left (by omega : i < res.length)]
      have hix : idx.count_ + i - res.length = i := by omega
      simp only [hix]

/-- Witness for C10: a second `loadStrings` on the C5 buffer duplicates
the two elements. -/
theorem cffIndex_C10_witness :
    ∃ idx2 c2,
      (⟨"CharStrings", 0, 1, false, 2, 1, [1, 2, 4], 9,
          [Element.str "A", Element.str "BC"]⟩ : CffIndex).loadStrings
          ⟨[0, 2, 1, 1, 2, 4, 65, 66, 67], 9⟩ = some (idx2, c2) ∧
      idx2.elements_.length = 2 * 2 ∧
      ∀ i, i < 2 → idx2.getElement (2 + i) = idx2.getElement i :=
  cffIndex_C10 ⟨"CharStrings", 0, 1, false, 2, 1, [1, 2, 4], 9, []⟩
    ⟨"CharStrings", 0, 1, false, 2, 1, [1, 2, 4], 9,
      [Element.str "A", Element.str "BC"]⟩
    ⟨[0, 2, 1, 1, 2, 4, 65, 66, 67], 6⟩ ⟨[0, 2, 1, 1, 2, 4, 65, 66, 67], 9⟩
    (by decide) rfl (by decide)

/-! ### A reference encoder for round-tripping (spec side)

`encodeIndex` follows the spec's description of the INDEX byte layout
(`count:uint16, offSize:uint8 [omitted if count=0],
offset-array:(count+1)*offSize bytes, data`): it is the spec-side
inverse against which the decoder is round-tripped. -/

/-- Big-endian encoding of `v` in exactly `w` bytes, most significant
byte first. -/
def beBytes : Nat → Nat → List Nat
  | 0, _ => []
  | w + 1, v => beBytes w (v / 256) ++ [v % 256]

/-- The 1-based CFF offsets of a list of element payloads: `base`
followed by the running end positions, `count + 1` values in all. -/
def cumOffsets (base : Nat) : List (List Nat) → List Nat
  | [] => [base]
  | e :: es => base :: cumOffsets (base + e.length) es

/-- Total byte length of the element payloads. -/
def totalLen (elems : List (List Nat)) : Nat :=
  (elems.map List.length).sum

/-- A well-formed INDEX encoding of the payloads at the chosen offset
width; the canonical 2-byte form `[00 00]` when there are no elements. -/
def encodeIndex (offSize : Nat) (elems : List (List Nat)) : List Nat :=
  if elems.length = 0 then [0, 0]
  else
    beBytes 2 elems.length ++
      ([offSize] ++ ((cumOffsets 1 elems).flatMap (beBytes offSize) ++ elems.flatten))

theorem beBytes_length : ∀ (w v : Nat), (beBytes w v).length = w
  | 0, _ => rfl
  | w + 1, v => by
    simp only [beBytes, List.length_append, List.length_cons, List.length_nil]
    rw [beBytes_length w]

theorem foldl_beBytes : ∀ (w v a : Nat),
    (beBytes w v).foldl (fun x b => x * 256 + b) a = a * 256 ^ w + v % 256 ^ w
  | 0, v, a => by simp [beBytes, Nat.mod_one]
  | w + 1, v, a => by
    rw [beBytes, List.foldl_append, foldl_beBytes w (v / 256) a]
    simp only [List.foldl_cons, List.foldl_nil]
    have hm : v % 256 ^ (w + 1) = v % 256 + 256 * (v / 256 % 256 ^ w) := by
      rw [pow_succ, Nat.mul_comm (256 ^ w) 256]
      exact Nat.mod_mul
    rw [hm, pow_succ]
    ring

theorem cumOffsets_length : ∀ (base : Nat) (es : List (List Nat)),
    (cumOffsets base es).length = es.length + 1
  | _, [] => rfl
  | base, e :: es => by
    simp only [cumOffsets, List.length_cons]
    rw [cumOffsets_length (base + e.length) es]

theorem cumOffsets_le : ∀ (base : Nat) (es : List (List Nat)) (x : Nat),
    x ∈ cumOffsets base es → x ≤ base + totalLen es
  | base, [], x, hx => by
    simp only [cumOffsets, List.mem_singleton] at hx
    simp [hx, totalLen]
  | base, e :: es, x, hx => by
    simp only [cumOffsets, List.mem_cons] at hx
    have htl : totalLen (e :: es) = e.length + totalLen es := by
      simp [totalLen]
    cases hx with
    | inl h => omega
    | inr h =>
      have := cumOffsets_le (base + e.length) es x h
      omega

theorem flatMap_beBytes_length (w : Nat) :
    ∀ (vs : List Nat), (vs.flatMap (beBytes w)).length = vs.length * w
  | [] => by simp
  | v :: vs => by
    simp only [List.flatMap_cons, List.length_append, beBytes_length,
      flatMap_beBytes_length w vs, List.length_cons]
    ring

/-! ### Reading back the encoding -/

theorem Cursor.readBytes_prefix (c : Cursor) (bs rest : List Nat)
    (hdrop : c.buf.drop c.pos = bs ++ rest) (hpos : c.pos ≤ c.buf.length) :
    c.readBytes bs.length = some (bs, { c with pos := c.pos + bs.length }) := by
  have hlen : c.buf.length - c.pos = bs.length + rest.length := by
    have h := congrArg List.length hdrop
    simpa using h
  unfold Cursor.readBytes
  rw [if_pos (by omega), hdrop, List.take_left]

theorem Cursor.getOffset_prefix (c : Cursor) (w v : Nat) (rest : List Nat)
    (hw1 : 1 ≤ w) (hw4 : w ≤ 4)
    (hdrop : c.buf.drop c.pos = beBytes w v ++ rest) (hpos : c.pos ≤ c.buf.length)
    (hv : v < 256 ^ w) :
    c.getOffset w = some (v, { c with pos := c.pos + w }) := by
  have h := Cursor.readBytes_prefix c (beBytes w v) rest hdrop hpos
  rw [beBytes_length] at h
  unfold Cursor.getOffset
  rw [if_pos ⟨hw1, hw4⟩, h]
  simp [foldl_beBytes, Nat.mod_eq_of_lt hv]

theorem Cursor.getUint16_prefix (c : Cursor) (v : Nat) (rest : List Nat)
    (hdrop : c.buf.drop c.pos = beBytes 2 v ++ rest) (hpos : c.pos ≤ c.buf.length)
    (hv : v < 65536) :
    c.getUint16 = some (v, { c with pos := c.pos + 2 }) := by
  have h := Cursor.readBytes_prefix c (beBytes 2 v) rest hdrop hpos
  rw [beBytes_length] at h
  have hv2 : v < 256 ^ 2 := lt_of_lt_of_le hv (by decide)
  unfold Cursor.getUint16
  rw [h]
  simp [foldl_beBytes, Nat.mod_eq_of_lt, hv, hv2]

theorem Cursor.getUint8_prefix (c : Cursor) (b : Nat) (rest : List Nat)
    (hdrop : c.buf.drop c.pos = b :: rest) (hpos : c.pos ≤ c.buf.length) :
    c.getUint8 = some (b, { c with pos := c.pos + 1 }) := by
  have h := Cursor.readBytes_prefix c [b] rest (by simpa using hdrop) hpos
  unfold Cursor.getUint8
  rw [show ([b] : List Nat).length = 1 from rfl] at h
  rw [h]
  simp

theorem readOffsetsLoop_encode (w : Nat) (hw1 : 1 ≤ w) (hw4 : w ≤ 4) :
    ∀ (vs acc : List Nat) (c : Cursor) (rest : List Nat),
      c.buf.drop c.pos = vs.flatMap (beBytes w) ++ rest →
      c.pos ≤ c.buf.length →
      (∀ v ∈ vs, v < 256 ^ w) →
      readOffsetsLoop w vs.length acc c =
        some (acc ++ vs, { c with pos := c.pos + vs.length * w })
  | [], acc, c, rest, hdrop, hpos, hv => by
    simp [readOffsetsLoop]
  | v :: vs, acc, c, rest, hdrop, hpos, hv => by
    rw [List.flatMap_cons, List.append_assoc] at hdrop
    have hL := congrArg List.length hdrop
    simp only [List.length_drop, List.length_append, beBytes_length] at hL
    show readOffsetsLoop w (vs.length + 1) acc c = _
    simp only [readOffsetsLoop]
    rw [Cursor.getOffset_prefix c w v _ hw1 hw4 hdrop hpos (hv v (by simp))]
    have hdrop2 : c.buf.drop (c.pos + w) = vs.flatMap (beBytes w) ++ rest := by
      have hd := List.drop_left (beBytes w v) (vs.flatMap (beBytes w) ++ rest)
      rw [beBytes_length] at hd
      rw [← List.drop_drop, hdrop, hd]
    have hrec := readOffsetsLoop_encode w hw1 hw4 vs (acc ++ [v])
      { c with pos := c.pos + w } rest hdrop2 (by simp; omega)
      (fun u hu => hv u (by simp [hu]))
    show readOffsetsLoop w vs.length (acc ++ [v]) { buf := c.buf, pos := c.pos + w } = _
    rw [hrec]
    have harith : c.pos + w + vs.length * w = c.pos + (vs.length + 1) * w := by ring
    simp only [harith, List.length_cons, List.append_assoc, List.cons_append,
      List.nil_append]

theorem loadStringsLoop_encode (offs : List Nat) :
    ∀ (es : List (List Nat)) (base i : Nat) (acc : List Element) (c : Cursor)
      (rest : List Nat),
      offs.drop i = cumOffsets base es →
      c.buf.drop c.pos = es.flatten ++ rest →
      c.pos ≤ c.buf.length →
      loadStringsLoop true offs es.length i acc c =
        some (acc ++ es.map Element.bin, { c with pos := c.pos + totalLen es })
  | [], base, i, acc, c, rest, hoffs, hflat, hpos => by
    simp [loadStringsLoop, totalLen]
  | e :: es, base, i, acc, c, rest, hoffs, hflat, hpos => by
    have hi0 : offs.getD i 0 = base := by
      rw [List.getD_eq_getElem?_getD]
      have h0 : (offs.drop i)[0]? = offs[i + 0]? := List.getElem?_drop offs i 0
      rw [hoffs] at h0
      simp only [cumOffsets, List.getElem?_cons_zero] at h0
      rw [Nat.add_zero] at h0
      rw [← h0]
      rfl
    have hi1 : offs.getD (i + 1) 0 = base + e.length := by
      rw [List.getD_eq_getElem?_getD]
      have h1 : (offs.drop i)[1]? = offs[i + 1]? := List.getElem?_drop offs i 1
      rw [hoffs] at h1
      simp only [cumOffsets, List.getElem?_cons_succ] at h1
      have h2 : (cumOffsets (base + e.length) es)[0]? = some (base + e.length) := by
        cases es <;> simp [cumOffsets]
      rw [h2] at h1
      rw [← h1]
      rfl
    have hL := congrArg List.length hflat
    simp only [List.length_drop, List.flatten_cons, List.length_append] at hL
    have hflat2 : c.buf.drop c.pos = e ++ (es.flatten ++ rest) := by
      rw [hflat, List.flatten_cons, List.append_assoc]
    show loadStringsLoop true offs (es.length + 1) i acc c = _
    simp only [loadStringsLoop, hi0, hi1, if_true]
    have hdl : base + e.length - base = e.length := by omega
    rw [hdl]
    unfold Cursor.readDataView
    rw [Cursor.readBytes_prefix c e (es.flatten ++ rest) hflat2 hpos]
    have hdrop2 : c.buf.drop (c.pos + e.length) = es.flatten ++ rest := by
      have hd := List.drop_left e (es.flatten ++ rest)
      rw [← List.drop_drop, hflat2, hd]
    have hrec := loadStringsLoop_encode offs es (base + e.length) (i + 1)
      (acc ++ [Element.bin e]) { c with pos := c.pos + e.length } rest
      (by
        have hdd : offs.drop (i + 1) = (offs.drop i).drop 1 := by
          rw [List.drop_drop]
        rw [hdd, hoffs]
        rfl)
      hdrop2 (by simp; omega)
    show loadStringsLoop true offs es.length (i + 1) (acc ++ [Element.bin e])
        { buf := c.buf, pos := c.pos + e.length } = _
    rw [hrec]
    have htl : c.pos + e.length + totalLen es = c.pos + totalLen (e :: es) := by
      simp only [totalLen, List.map_cons, List.sum_cons]
      ring
    simp only [htl, List.append_assoc, List.cons_append, List.nil_append, List.map_cons]

/-- C9 (round-trip): encoding any sequence of byte-string payloads as a
well-formed INDEX with a chosen `offsetWidth` in `1..4` (small enough to
hold the offsets), decoding it, and loading, makes `getElement(i)` return
the `i`-th payload byte-for-byte. -/
theorem cffIndex_C9 (name : String) (type p offSize : Nat) (elems : List (List Nat))
    (hw1 : 1 ≤ offSize) (hw4 : offSize ≤ 4)
    (hcount : elems.length ≤ 65535)
    (hfit : 1 + totalLen elems < 256 ^ offSize) :
    ∃ idx c1 idx2 c2,
      CffIndex.make name 0 type true ⟨encodeIndex offSize elems, p⟩ = some (idx, c1) ∧
      idx.count_ = elems.length ∧
      idx.loadStrings c1 = some (idx2, c2) ∧
      ∀ (i : Nat) (h : i < elems.length),
        idx2.getElement i = Except.ok (Element.bin (elems.get ⟨i, h⟩)) := by
  by_cases hnil : elems.length = 0
  · have he : elems = [] := List.length_eq_zero.mp hnil
    subst he
    refine ⟨⟨name, 0, type, true, 0, 0, [], 2, []⟩, ⟨[0, 0], 2⟩,
      ⟨name, 0, type, true, 0, 0, [], 2, []⟩, ⟨[0, 0], 3⟩, rfl, rfl, rfl, ?_⟩
    intro i h
    exact absurd h (by simp)
  · have hB : encodeIndex offSize elems =
        beBytes 2 elems.length ++
          ([offSize] ++
            ((cumOffsets 1 elems).flatMap (beBytes offSize) ++ elems.flatten)) := by
      unfold encodeIndex
      rw [if_neg hnil]
    have hlenOffs : ((cumOffsets 1 elems).flatMap (beBytes offSize)).length =
        (elems.length + 1) * offSize := by
      rw [flatMap_beBytes_length, cumOffsets_length]
    have hBlen : (encodeIndex offSize elems).length =
        3 + (elems.length + 1) * offSize + elems.flatten.length := by
      rw [hB]
      simp only [List.length_append, List.length_cons, List.length_nil,
        beBytes_length, hlenOffs]
      omega
    have h16 : (Cursor.seek ⟨encodeIndex offSize elems, p⟩ 0).getUint16 =
        some (elems.length, ⟨encodeIndex offSize elems, 2⟩) :=
      Cursor.getUint16_prefix ⟨encodeIndex offSize elems, 0⟩ elems.length
        ([offSize] ++ ((cumOffsets 1 elems).flatMap (beBytes offSize) ++ elems.flatten))
        (by simpa using hB) (by simp) (by omega)
    have h8 : Cursor.getUint8 ⟨encodeIndex offSize elems, 2⟩ =
        some (offSize, ⟨encodeIndex offSize elems, 3⟩) := by
      have hd2 : (encodeIndex offSize elems).drop 2 =
          offSize :: ((cumOffsets 1 elems).flatMap (beBytes offSize) ++ elems.flatten) := by
        have hd := List.drop_left (beBytes 2 elems.length)
          ([offSize] ++ ((cumOffsets 1 elems).flatMap (beBytes offSize) ++ elems.flatten))
        rw [beBytes_length] at hd
        rw [hB, hd]
        rfl
      exact Cursor.getUint8_prefix ⟨encodeIndex offSize elems, 2⟩ offSize
        ((cumOffsets 1 elems).flatMap (beBytes offSize) ++ elems.flatten)
        (by simpa using hd2)
        (by show (2 : Nat) ≤ (encodeIndex offSize elems).length; omega)
    have hro2 : readOffsetsLoop offSize (elems.length + 1) []
        ⟨encodeIndex offSize elems, 3⟩ =
        some (cumOffsets 1 elems,
          ⟨encodeIndex offSize elems, 3 + (elems.length + 1) * offSize⟩) := by
      have hd3 : (encodeIndex offSize elems).drop 3 =
          (cumOffsets 1 elems).flatMap (beBytes offSize) ++ elems.flatten := by
        have hd := List.drop_left (beBytes 2 elems.length ++ [offSize])
          ((cumOffsets 1 elems).flatMap (beBytes offSize) ++ elems.flatten)
        rw [hB, ← List.append_assoc]
        exact hd
      have h := readOffsetsLoop_encode offSize hw1 hw4 (cumOffsets 1 elems) []
        ⟨encodeIndex offSize elems, 3⟩ elems.flatten
        (by simpa using hd3)
        (by show (3 : Nat) ≤ (encodeIndex offSize elems).length; omega)
        (fun v hv0 => lt_of_le_of_lt (cumOffsets_le 1 elems v hv0) hfit)
      rw [cumOffsets_length] at h
      simpa using h
    have hmk : CffIndex.make name 0 type true ⟨encodeIndex offSize elems, p⟩ =
        some (⟨name, 0, type, true, elems.length, offSize, cumOffsets 1 elems,
            2 + 1 + (elems.length + 1) * offSize +
              (cumOffsets 1 elems).getD elems.length 0 - 1, []⟩,
          ⟨encodeIndex offSize elems, 3 + (elems.length + 1) * offSize⟩) := by
      unfold CffIndex.make
      simp only [h16]
      rw [if_neg hnil]
      simp only [h8, hro2]
    have hB2 : encodeIndex offSize elems =
        (beBytes 2 elems.length ++
          ([offSize] ++ (cumOffsets 1 elems).flatMap (beBytes offSize))) ++
          elems.flatten := by
      rw [hB]
      simp [List.append_assoc]
    have hplen : (beBytes 2 elems.length ++
        ([offSize] ++ (cumOffsets 1 elems).flatMap (beBytes offSize))).length =
        3 + (elems.length + 1) * offSize := by
      simp only [List.length_append, List.length_cons, List.length_nil,
        beBytes_length, hlenOffs]
      omega
    have hdata : (encodeIndex offSize elems).drop (3 + (elems.length + 1) * offSize) =
        elems.flatten := by
      rw [hB2, ← hplen]
      exact List.drop_left _ _
    have hload : (⟨name, 0, type, true, elems.length, offSize, cumOffsets 1 elems,
          2 + 1 + (elems.length + 1) * offSize +
            (cumOffsets 1 elems).getD elems.length 0 - 1, []⟩ : CffIndex).loadStrings
          ⟨encodeIndex offSize elems, 3 + (elems.length + 1) * offSize⟩ =
        some (⟨name, 0, type, true, elems.length, offSize, cumOffsets 1 elems,
            2 + 1 + (elems.length + 1) * offSize +
              (cumOffsets 1 elems).getD elems.length 0 - 1, elems.map Element.bin⟩,
          ⟨encodeIndex offSize elems,
            3 + (elems.length + 1) * offSize + totalLen elems⟩) := by
      have h := loadStringsLoop_encode (cumOffsets 1 elems) elems 1 0 []
        ⟨encodeIndex offSize elems, 0 + 2 + 1 + (elems.length + 1) * offSize⟩ []
        (by rw [List.drop_zero])
        (by
          rw [List.append_nil]
          show (encodeIndex offSize elems).drop (0 + 2 + 1 + (elems.length + 1) * offSize) =
            elems.flatten
          have harith : 0 + 2 + 1 + (elems.length + 1) * offSize =
              3 + (elems.length + 1) * offSize := by omega
          rw [harith]
          exact hdata)
        (by
          show 0 + 2 + 1 + (elems.length + 1) * offSize ≤ (encodeIndex offSize elems).length
          omega)
      unfold CffIndex.loadStrings
      simp only [Cursor.seek]
      simp only [h]
      have harith2 : 0 + 2 + 1 + (elems.length + 1) * offSize + totalLen elems =
          3 + (elems.length + 1) * offSize + totalLen elems := by omega
      simp [harith2]
    refine ⟨_, _, _, _, hmk, rfl, hload, ?_⟩
    intro i h
    unfold CffIndex.getElement
    rw [dif_pos (by simpa using h)]
    simp [List.get_eq_getElem, List.getElem_map]

/-- Witness for C9: two payloads `[65]` and `[66, 67]` encoded at offset
width 1 round-trip through the decoder. -/
theorem cffIndex_C9_witness :
    ∃ idx c1 idx2 c2,
      CffIndex.make "W9" 0 1 true ⟨encodeIndex 1 [[65], [66, 67]], 0⟩ =
        some (idx, c1) ∧
      idx.count_ = ([[65], [66, 67]] : List (List Nat)).length ∧
      idx.loadStrings c1 = some (idx2, c2) ∧
      ∀ (i : Nat) (h : i < ([[65], [66, 67]] : List (List Nat)).length),
        idx2.getElement i =
          Except.ok (Element.bin (([[65], [66, 67]] : List (List Nat)).get ⟨i, h⟩)) :=
  cffIndex_C9 "W9" 1 0 1 [[65], [66, 67]] (by decide) (by decide) (by decide) (by decide)

end tachyfont
